import Mathlib

/-!
Verification of the slide layout engine of scripture-to-slides
(src/esv_slides/pdf_generator.py): text classification, element parsing,
greedy word wrap, pagination with heading-orphan avoidance, and inline
verse-number segmentation.  Text is modelled as List Char; widths are ℚ;
the injected measurement function is an arbitrary List Char → ℚ.
-/

namespace SlideLayout

/-- A character is whitespace (models Python whitespace for the characters
that occur in passage text). -/
def isWs (c : Char) : Bool := c.isWhitespace

/-- Python str.split("\n"): split on newline characters, keeping empty pieces. -/
def splitNl : List Char → List (List Char)
  | [] => [[]]
  | c :: rest =>
    if c = '\n' then [] :: splitNl rest
    else
      match splitNl rest with
      | [] => [[c]]
      | l :: ls => (c :: l) :: ls

/-- Python str.strip(): remove leading and trailing whitespace. -/
def pyStrip (s : List Char) : List Char :=
  (((s.dropWhile isWs).reverse).dropWhile isWs).reverse

/-- Helper: accumulate the current word while splitting on whitespace. -/
def splitWsAux : List Char → List Char → List (List Char)
  | cur, [] => if cur.isEmpty then [] else [cur]
  | cur, c :: rest =>
    if isWs c then (if cur.isEmpty then [] else [cur]) ++ splitWsAux [] rest
    else splitWsAux (cur ++ [c]) rest

/-- Python str.split() with no argument: whitespace-separated words, no empties. -/
def pyWords (s : List Char) : List (List Char) := splitWsAux [] s

/-- Python " ".join(ws). -/
def joinSp : List (List Char) → List Char
  | [] => []
  | [w] => w
  | w :: ws => w ++ ' ' :: joinSp ws

/-- Greedy wrap loop of PDFGenerator._wrap_text, producing the word groups
that the source joins with single spaces when it appends to lines. -/
def wrapAux (measure : List Char → ℚ) (maxWidth : ℚ) :
    List (List Char) → List (List Char) → List (List (List Char))
  | cur, [] => if cur.isEmpty then [] else [cur]
  | cur, w :: ws =>
    if measure (joinSp (cur ++ [w])) ≤ maxWidth then
      wrapAux measure maxWidth (cur ++ [w]) ws
    else
      (if cur.isEmpty then [] else [cur]) ++ wrapAux measure maxWidth [w] ws

/-- Word groups of PDFGenerator._wrap_text. -/
def wrapGroups (measure : List Char → ℚ) (maxWidth : ℚ) (text : List Char) :
    List (List (List Char)) :=
  wrapAux measure maxWidth [] (pyWords text)

/-- PDFGenerator._wrap_text: the returned list of wrapped lines. -/
def wrapText (measure : List Char → ℚ) (maxWidth : ℚ) (text : List Char) :
    List (List Char) :=
  (wrapGroups measure maxWidth text).map joinSp

/-- Try to match the verse-number pattern (an opening bracket, one or more
digits, a closing bracket) at the very start of the character list; on
success return the digits and the remainder after the match.  Models one
position of re.finditer with pattern backslash-bracket digits backslash-bracket. -/
def tryMatchAt : List Char → Option (List Char × List Char)
  | [] => none
  | c :: rest =>
    if c = '[' then
      match rest.takeWhile Char.isDigit, rest.dropWhile Char.isDigit with
      | [], _ => none
      | d :: ds, cl :: tail => if cl = ']' then some (d :: ds, tail) else none
      | _ :: _, [] => none
    else none

/-- re.search of the verse-number pattern: does a match start at some position? -/
def hasMarker : List Char → Bool
  | [] => false
  | c :: rest => (tryMatchAt (c :: rest)).isSome || hasMarker rest

/-- The line starts with a space character (Python: line and line[0] == " "). -/
def hasLeadingSpace : List Char → Bool
  | [] => false
  | c :: _ => c = ' '

/-- PDFGenerator._is_section_heading. -/
def isSectionHeading (line : List Char) : Bool :=
  !(pyStrip line).isEmpty && !hasMarker (pyStrip line) && !hasLeadingSpace line

/-- PDFGenerator._is_poetry. -/
def isPoetry (text : List Char) : Bool :=
  (splitNl text).any (fun line =>
    !line.isEmpty && hasLeadingSpace line && !(pyStrip line).isEmpty)

/-- Structured passage element (the string-tagged tuples of
_parse_passage_elements). -/
inductive Element where
  | heading (text : List Char)
  | body (text : List Char)
  | poetry (text : List Char)
deriving DecidableEq, Repr

/-- Flushing the accumulated body buffer in _parse_passage_elements: one
poetry element per buffered raw line in a poetry passage, a single joined
body element otherwise. -/
def flushBody (poetryMode : Bool) (buf : List (List Char)) : List Element :=
  if poetryMode then buf.map Element.poetry
  else [Element.body (joinSp buf)]

/-- The line scan of PDFGenerator._parse_passage_elements. -/
def parseLinesAux (poetryMode : Bool) :
    List (List Char) → List (List Char) → List Element
  | buf, [] => if buf.isEmpty then [] else flushBody poetryMode buf
  | buf, line :: rest =>
    if (pyStrip line).isEmpty then parseLinesAux poetryMode buf rest
    else if isSectionHeading line then
      (if buf.isEmpty then [] else flushBody poetryMode buf) ++
        Element.heading (pyStrip line) :: parseLinesAux poetryMode [] rest
    else
      parseLinesAux poetryMode
        (buf ++ [if poetryMode then line else pyStrip line]) rest

/-- PDFGenerator._parse_passage_elements. -/
def parsePassageElements (text : List Char) : List Element :=
  parseLinesAux (isPoetry text) [] (splitNl text)

/-- A wrapped line carrying its tag, as built in _create_body_slides. -/
inductive WrappedLine where
  | heading (text : List Char)
  | body (text : List Char)
  | poetry (indent : Nat) (text : List Char)
deriving DecidableEq, Repr

/-- The per-element formatting loop of _create_body_slides (lines 256-283):
headings pass through, poetry lines are stripped of leading spaces and
wrapped against a width reduced by the indent, bodies are wrapped plainly.
The source's branch on the sub-line index appends the same indent in both
branches; that branching is reproduced verbatim here. -/
def formatElement (measure : List Char → ℚ) (availableWidth bodyFontSize : ℚ) :
    Element → List WrappedLine
  | Element.heading t => [WrappedLine.heading t]
  | Element.poetry content =>
    let strippedText := content.dropWhile (fun c => c = ' ')
    let leadingSpaces := content.length - strippedText.length
    let indentOffset := (leadingSpaces : ℚ) * (bodyFontSize * (3 / 10))
    let poetryAvailableWidth := availableWidth - indentOffset
    let wrapped := wrapText measure poetryAvailableWidth strippedText
    wrapped.enum.map (fun p =>
      if p.1 = 0 then WrappedLine.poetry leadingSpaces p.2
      else WrappedLine.poetry leadingSpaces p.2)
  | Element.body content =>
    (wrapText measure availableWidth content).map WrappedLine.body

/-- The flat wrapped-line sequence built by _create_body_slides before
pagination. -/
def formatLines (measure : List Char → ℚ) (availableWidth bodyFontSize : ℚ)
    (elements : List Element) : List WrappedLine :=
  elements.flatMap (formatElement measure availableWidth bodyFontSize)

/-- Python int() on a rational: truncation toward zero. -/
def pyInt (q : ℚ) : ℤ := if 0 ≤ q then ⌊q⌋ else ⌈q⌉

/-- max_lines = int(available_height / line_height). -/
def maxLinesOf (availableHeight lineHeight : ℚ) : ℤ :=
  pyInt (availableHeight / lineHeight)

/-- Does the wrapped-line sequence start with a body line?  This is the
look-ahead test formatted_lines[line_index + 1][0] == "body" of the
paginator, and is also used to describe slide boundaries. -/
def startsWithBody : List WrappedLine → Bool
  | WrappedLine.body _ :: _ => true
  | _ => false

/-- Does the slide end with a heading? -/
def endsWithHeading (s : List WrappedLine) : Bool :=
  match s.getLast? with
  | some (WrappedLine.heading _) => true
  | _ => false

/-- The inner pagination loop of _create_body_slides: starting from the
current slide and its used line count, consume wrapped lines until a break;
return the finished slide and the unconsumed remainder. -/
def fillSlide (maxLines : ℤ) :
    List WrappedLine → ℤ → List WrappedLine → List WrappedLine × List WrappedLine
  | cur, _, [] => (cur, [])
  | cur, used, item :: rest =>
    match item with
    | WrappedLine.heading _ =>
      let linesNeeded : ℤ := if cur.isEmpty then 1 else 2
      let totalNeeded : ℤ :=
        if startsWithBody rest then linesNeeded + 1 else linesNeeded
      if used + totalNeeded > maxLines ∧ ¬ cur.isEmpty then (cur, item :: rest)
      else fillSlide maxLines (cur ++ [item]) (used + linesNeeded) rest
    | _ =>
      if used + 1 > maxLines then (cur, item :: rest)
      else fillSlide maxLines (cur ++ [item]) (used + 1) rest

/-- The outer pagination loop of _create_body_slides, with explicit fuel:
each fuel unit is one outer iteration; none models running out of fuel
while input remains (in the source, an iteration that consumes nothing
loops forever). -/
def paginateFuel (maxLines : ℤ) : Nat → List WrappedLine → Option (List (List WrappedLine))
  | _, [] => some []
  | 0, _ :: _ => none
  | fuel + 1, line :: rest =>
    let r := fillSlide maxLines [] 0 (line :: rest)
    match paginateFuel maxLines fuel r.2 with
    | none => none
    | some slides => some (if r.1.isEmpty then slides else r.1 :: slides)

/-- Pagination driven by the geometry, as in the source:
max_lines = int(available_height / line_height). -/
def paginateHeights (availableHeight lineHeight : ℚ) (fuel : Nat)
    (lines : List WrappedLine) : Option (List (List WrappedLine)) :=
  paginateFuel (maxLinesOf availableHeight lineHeight) fuel lines

/-- Budget units a slide consumes when rendered, as accumulated in
lines_on_slide: the first item costs one unit, every later heading costs
two (gap plus heading), every later body or poetry line costs one. -/
def laterUnits : WrappedLine → ℤ
  | WrappedLine.heading _ => 2
  | _ => 1

/-- Total budget units of a slide. -/
def slideUnits : List WrappedLine → ℤ
  | [] => 0
  | _ :: rest => 1 + (rest.map laterUnits).sum

/-- A segment of a rendered line, as in
_render_line_with_colored_verse_numbers. -/
inductive Segment where
  | text (s : List Char)
  | verse (digits : List Char)
deriving DecidableEq, Repr

/-- Anatomy of a successful match at the head of the list. -/
theorem tryMatchAt_some {l ds tail : List Char}
    (h : tryMatchAt l = some (ds, tail)) :
    l = '[' :: (ds ++ ']' :: tail) ∧ ds ≠ [] ∧ ∀ d ∈ ds, d.isDigit := by
  match l with
  | [] => simp [tryMatchAt] at h
  | c :: rest =>
    simp only [tryMatchAt] at h
    split at h
    next hc =>
      subst hc
      split at h
      next heq _ => exact absurd h (by simp)
      next d ds2 cl tail2 htake hdrop =>
        split at h
        next hcl =>
          subst hcl
          have hsplit : rest.takeWhile Char.isDigit ++ rest.dropWhile Char.isDigit = rest :=
            List.takeWhile_append_dropWhile Char.isDigit rest
          simp only [Option.some.injEq, Prod.mk.injEq] at h
          obtain ⟨hds, htail⟩ := h
          subst hds
          subst htail
          refine ⟨?_, by simp, ?_⟩
          · rw [List.cons_inj_right, ← hsplit, htake, hdrop]
          · intro x hx
            have : x ∈ rest.takeWhile Char.isDigit := by rw [htake]; exact hx
            exact List.mem_takeWhile_imp this
        next => exact absurd h (by simp)
      next => exact absurd h (by simp)
    next => exact absurd h (by simp)

/-- The segmentation scan of _render_line_with_colored_verse_numbers:
characters not starting a verse-number match accumulate into a pending
text run; a match flushes the pending run (if non-empty), emits a verse
segment with the bare digits, and continues after the match. -/
def segmentAux : List Char → List Char → List Segment
  | pending, [] => if pending.isEmpty then [] else [Segment.text pending]
  | pending, c :: rest =>
    match h : tryMatchAt (c :: rest) with
    | some (ds, tail) =>
      (if pending.isEmpty then [] else [Segment.text pending]) ++
        Segment.verse ds :: segmentAux [] tail
    | none => segmentAux (pending ++ [c]) rest
termination_by _ cs => cs.length
decreasing_by
  · obtain ⟨hsh, -, -⟩ := tryMatchAt_some h
    have : (c :: rest).length = (('[' : Char) :: (ds ++ ']' :: tail)).length := by rw [hsh]
    simp only [List.length_cons, List.length_append] at this ⊢
    omega
  · simp

/-- Segmentation of one rendered line. -/
def segmentLine (line : List Char) : List Segment := segmentAux [] line

/-- Reassembly of a segment: text verbatim, digits re-bracketed. -/
def renderSegment : Segment → List Char
  | Segment.text s => s
  | Segment.verse ds => '[' :: ds ++ [']']

/-- Well-formedness of one segment: a text segment is non-empty and
contains no verse-number match; a verse segment holds a non-empty run of
digits. -/
def segOk : Segment → Bool
  | Segment.text s => !s.isEmpty && !hasMarker s
  | Segment.verse ds => !ds.isEmpty && ds.all Char.isDigit

/-- Is this segment a text segment? -/
def isTextSeg : Segment → Bool
  | Segment.text _ => true
  | Segment.verse _ => false

/-- Content carried by an element. -/
def elemContent : Element → List Char
  | Element.heading t => t
  | Element.body t => t
  | Element.poetry t => t

/-- The non-whitespace characters of a string, in order. -/
def nonWhite (s : List Char) : List Char := s.filter (fun c => !isWs c)

/-- Reference definition written from the claim's words (C8): a passage is
poetry iff at least one line has a leading space character and non-empty
stripped content. -/
def isPoetrySpec (text : List Char) : Bool :=
  (splitNl text).any (fun l => hasLeadingSpace l && !(pyStrip l).isEmpty)

/-- Reference definition written from the claim's words (C8): in a poetry
passage every blank line is dropped, every heading line becomes a heading
element, and every other line becomes one poetry element holding the raw
line with its leading whitespace. -/
def poetryElemsSpec (text : List Char) : List Element :=
  (splitNl text).filterMap (fun l =>
    if (pyStrip l).isEmpty then none
    else if isSectionHeading l then some (Element.heading (pyStrip l))
    else some (Element.poetry l))

/-- dropWhile never lengthens a list. -/
theorem dropWhile_length_le {α : Type} (p : α → Bool) :
    ∀ l : List α, (l.dropWhile p).length ≤ l.length := by
  intro l
  induction l with
  | nil => simp
  | cons a t ih =>
    rw [List.dropWhile_cons]
    split
    · simp only [List.length_cons]
      omega
    · simp

/-- Reference definition written from the claim's words (C8): on a prose
passage (blank lines already removed), each heading line yields a heading
element and each maximal run of consecutive non-heading lines yields one
body element joining the stripped lines with single spaces. -/
def proseRuns : List (List Char) → List Element
  | [] => []
  | l :: rest =>
    if isSectionHeading l then Element.heading (pyStrip l) :: proseRuns rest
    else
      Element.body (joinSp (pyStrip l ::
          (rest.takeWhile (fun x => !isSectionHeading x)).map pyStrip)) ::
        proseRuns (rest.dropWhile (fun x => !isSectionHeading x))
termination_by ls => ls.length
decreasing_by
  · simp
  · simp only [List.length_cons, Nat.lt_succ_iff]
    exact dropWhile_length_le _ _

/-- Reference definition written from the claim's words (C8), prose side:
drop blank lines, then group runs. -/
def proseElemsSpec (text : List Char) : List Element :=
  proseRuns ((splitNl text).filter (fun l => !(pyStrip l).isEmpty))

/-- Reference definition written from the claim's words (C8): the
poetry-vs-prose decision is made once from the full raw text and selects
how every element of the passage is emitted. -/
def parseSpec (text : List Char) : List Element :=
  if isPoetrySpec text then poetryElemsSpec text else proseElemsSpec text

/-! ### Wrap lemmas -/

/-- Every group produced by the wrap loop either measures within the budget
or is a single word drawn from the pending group or the remaining words. -/
theorem wrapAux_mem (measure : List Char → ℚ) (maxWidth : ℚ) :
    ∀ (ws cur : List (List Char)),
      (cur = [] ∨ measure (joinSp cur) ≤ maxWidth ∨ ∃ w, cur = [w]) →
      ∀ g ∈ wrapAux measure maxWidth cur ws,
        measure (joinSp g) ≤ maxWidth ∨ ∃ w, g = [w] ∧ (w ∈ cur ∨ w ∈ ws) := by
  intro ws
  induction ws with
  | nil =>
    intro cur hinv g hg
    simp only [wrapAux] at hg
    split at hg
    · simp at hg
    next hne =>
      simp only [List.mem_singleton] at hg
      subst hg
      rcases hinv with h | h | ⟨w, rfl⟩
      · subst h; simp at hne
      · exact Or.inl h
      · exact Or.inr ⟨w, rfl, Or.inl (by simp)⟩
  | cons w ws ih =>
    intro cur hinv g hg
    simp only [wrapAux] at hg
    split at hg
    next hfits =>
      rcases ih (cur ++ [w]) (Or.inr (Or.inl hfits)) g hg with h | ⟨w2, rfl, hw2⟩
      · exact Or.inl h
      · refine Or.inr ⟨w2, rfl, ?_⟩
        rcases hw2 with hw2 | hw2
        · rcases List.mem_append.mp hw2 with h | h
          · exact Or.inl h
          · exact Or.inr (by simp at h; simp [h])
        · exact Or.inr (by simp [hw2])
    next =>
      rcases List.mem_append.mp hg with hg | hg
      · split at hg
        · simp at hg
        next hne =>
          simp only [List.mem_singleton] at hg
          subst hg
          rcases hinv with h | h | ⟨w2, rfl⟩
          · subst h; simp at hne
          · exact Or.inl h
          · exact Or.inr ⟨w2, rfl, Or.inl (by simp)⟩
      · rcases ih [w] (Or.inr (Or.inr ⟨w, rfl⟩)) g hg with h | ⟨w2, rfl, hw2⟩
        · exact Or.inl h
        · refine Or.inr ⟨w2, rfl, Or.inr ?_⟩
          rcases hw2 with hw2 | hw2
          · simp at hw2; simp [hw2]
          · simp [hw2]

/-- The wrap loop keeps every word, in order. -/
theorem wrapAux_flatten (measure : List Char → ℚ) (maxWidth : ℚ) :
    ∀ (ws cur : List (List Char)),
      (wrapAux measure maxWidth cur ws).flatten = cur ++ ws := by
  intro ws
  induction ws with
  | nil =>
    intro cur
    simp only [wrapAux]
    split
    next h => simp [List.isEmpty_iff.mp h]
    next => simp
  | cons w ws ih =>
    intro cur
    simp only [wrapAux]
    split
    · rw [ih]; simp
    · rw [List.flatten_append, ih]
      split
      next h => simp [List.isEmpty_iff.mp h]
      next => simp

/-- Words produced by the whitespace split are non-empty and contain no
whitespace characters. -/
theorem splitWsAux_words :
    ∀ (s cur : List Char), (∀ c ∈ cur, isWs c = false) →
      ∀ w ∈ splitWsAux cur s, w ≠ [] ∧ ∀ c ∈ w, isWs c = false := by
  intro s
  induction s with
  | nil =>
    intro cur hcur w hw
    simp only [splitWsAux] at hw
    split at hw
    · simp at hw
    next hne =>
      simp only [List.mem_singleton] at hw
      subst hw
      exact ⟨fun h => hne (by simp [h]), hcur⟩
  | cons c rest ih =>
    intro cur hcur w hw
    simp only [splitWsAux] at hw
    split at hw
    next hws =>
      rcases List.mem_append.mp hw with hw | hw
      · split at hw
        · simp at hw
        next hne =>
          simp only [List.mem_singleton] at hw
          subst hw
          exact ⟨fun h => hne (by simp [h]), hcur⟩
      · exact ih [] (by simp) w hw
    next hws =>
      refine ih (cur ++ [c]) ?_ w hw
      intro x hx
      rcases List.mem_append.mp hx with hx | hx
      · exact hcur x hx
      · simp only [List.mem_singleton] at hx
        subst hx
        simpa using hws

/-- Consuming a run of non-whitespace characters just extends the pending
word. -/
theorem splitWsAux_chunk :
    ∀ (w cur s : List Char), (∀ c ∈ w, isWs c = false) →
      splitWsAux cur (w ++ s) = splitWsAux (cur ++ w) s := by
  intro w
  induction w with
  | nil => intro cur s _; simp
  | cons c w ih =>
    intro cur s hw
    have hc : isWs c = false := hw c (by simp)
    have h1 : splitWsAux cur ((c :: w) ++ s) = splitWsAux (cur ++ [c]) (w ++ s) := by
      simp [splitWsAux, hc]
    rw [h1, ih (cur ++ [c]) s (fun x hx => hw x (by simp [hx]))]
    simp

/-- Splitting a single non-empty whitespace-free word returns just it. -/
theorem pyWords_single (w : List Char) (hne : w ≠ [])
    (hw : ∀ c ∈ w, isWs c = false) : pyWords w = [w] := by
  have := splitWsAux_chunk w [] [] hw
  simp only [List.append_nil, List.nil_append] at this
  unfold pyWords
  rw [this]
  simp only [splitWsAux]
  rw [if_neg (by simpa using hne)]

/-- Splitting a space-joined list of non-empty whitespace-free words
recovers the list. -/
theorem pyWords_joinSp :
    ∀ g : List (List Char),
      (∀ w ∈ g, w ≠ [] ∧ ∀ c ∈ w, isWs c = false) →
      pyWords (joinSp g) = g := by
  intro g
  induction g with
  | nil => intro _; rfl
  | cons w g ih =>
    intro hg
    obtain ⟨hwne, hwok⟩ := hg w (by simp)
    match g, ih with
    | [], _ =>
      simp only [joinSp]
      exact pyWords_single w hwne hwok
    | w2 :: g2, ih =>
      show pyWords (w ++ ' ' :: joinSp (w2 :: g2)) = w :: w2 :: g2
      unfold pyWords
      rw [splitWsAux_chunk w [] (' ' :: joinSp (w2 :: g2)) hwok]
      simp only [List.nil_append, splitWsAux]
      rw [if_pos (by simp [isWs])]
      rw [if_neg (by simpa using hwne)]
      have := ih (fun x hx => hg x (by simp [hx]))
      unfold pyWords at this
      rw [this]
      rfl

/-- C5 helper: lines of wrapText come from groups. -/
theorem wrapText_mem {measure : List Char → ℚ} {maxWidth : ℚ}
    {text line : List Char} (h : line ∈ wrapText measure maxWidth text) :
    ∃ g ∈ wrapGroups measure maxWidth text, line = joinSp g := by
  simp only [wrapText, List.mem_map] at h
  obtain ⟨g, hg, rfl⟩ := h
  exact ⟨g, hg, rfl⟩

/-- C5.  Every line output by the wrapper has measured width at most
maxWidth, except when that line is a single word of the input whose own
measured width exceeds maxWidth; such a word is emitted alone, never split. -/
theorem wrap_width_bound (measure : List Char → ℚ) (maxWidth : ℚ)
    (text line : List Char) (h : line ∈ wrapText measure maxWidth text) :
    measure line ≤ maxWidth ∨
      (line ∈ pyWords text ∧ maxWidth < measure line) := by
  by_cases hle : measure line ≤ maxWidth
  · exact Or.inl hle
  · obtain ⟨g, hg, rfl⟩ := wrapText_mem h
    rcases wrapAux_mem measure maxWidth (pyWords text) [] (Or.inl rfl) g hg with
      hcase | ⟨w, rfl, hw⟩
    · exact absurd hcase hle
    · rcases hw with hw | hw
      · simp at hw
      · exact Or.inr ⟨by simpa [joinSp] using hw, lt_of_not_le (by simpa [joinSp] using hle)⟩

/-- C6.  The words of the wrapper's output lines, concatenated in order,
are exactly the whitespace-separated words of the input; an input with no
words yields no lines, and an input with a word yields a line. -/
theorem wrap_preserves_words (measure : List Char → ℚ) (maxWidth : ℚ)
    (text : List Char) :
    ((wrapText measure maxWidth text).map pyWords).flatten = pyWords text ∧
      (pyWords text = [] → wrapText measure maxWidth text = []) ∧
      (pyWords text ≠ [] → wrapText measure maxWidth text ≠ []) := by
  have hflat : (wrapGroups measure maxWidth text).flatten = pyWords text :=
    wrapAux_flatten measure maxWidth (pyWords text) []
  have hgood : ∀ g ∈ wrapGroups measure maxWidth text,
      ∀ w ∈ g, w ≠ [] ∧ ∀ c ∈ w, isWs c = false := by
    intro g hg w hw
    have : w ∈ pyWords text := by
      rw [← hflat]
      exact List.mem_flatten.mpr ⟨g, hg, hw⟩
    exact splitWsAux_words text [] (by simp) w this
  refine ⟨?_, ?_, ?_⟩
  · rw [wrapText, List.map_map]
    have : (wrapGroups measure maxWidth text).map (pyWords ∘ joinSp) =
        (wrapGroups measure maxWidth text).map id := by
      apply List.map_congr_left
      intro g hg
      exact pyWords_joinSp g (hgood g hg)
    rw [this, List.map_id, hflat]
  · intro hempty
    simp only [wrapText, wrapGroups, hempty, wrapAux]
    rfl
  · intro hne hcon
    apply hne
    rw [← hflat]
    have hg : wrapGroups measure maxWidth text = [] := by
      have h2 := hcon
      simp only [wrapText] at h2
      exact List.map_eq_nil_iff.mp h2
    rw [hg]
    rfl

/-- Witness for C5: with a character-count measure and budget 1, the input
"a bb" wraps to the oversized single word "bb" on its own line. -/
theorem wrap_width_bound_witness :
    (fun s : List Char => (s.length : ℚ)) ['b', 'b'] ≤ 1 ∨
      (['b', 'b'] ∈ pyWords ['a', ' ', 'b', 'b'] ∧
        (1 : ℚ) < (fun s : List Char => (s.length : ℚ)) ['b', 'b']) :=
  wrap_width_bound (fun s => (s.length : ℚ)) 1 ['a', ' ', 'b', 'b'] ['b', 'b']
    (by decide)

/-- Witness for C6: a one-word input yields a non-empty output whose words
are the input's words. -/
theorem wrap_preserves_words_witness :
    ((wrapText (fun s : List Char => (s.length : ℚ)) 1 ['a']).map pyWords).flatten =
        pyWords ['a'] ∧
      wrapText (fun s : List Char => (s.length : ℚ)) 1 ['a'] ≠ [] :=
  ⟨(wrap_preserves_words (fun s => (s.length : ℚ)) 1 ['a']).1,
    (wrap_preserves_words (fun s => (s.length : ℚ)) 1 ['a']).2.2 (by decide)⟩

/-! ### Pagination lemmas -/

/-- Unit count of a slide extended by one line. -/
theorem slideUnits_append_single (cur : List WrappedLine) (x : WrappedLine) :
    slideUnits (cur ++ [x]) =
      if cur.isEmpty then 1 else slideUnits cur + laterUnits x := by
  cases cur with
  | nil => simp [slideUnits]
  | cons c rest =>
    simp [slideUnits, List.map_append, List.sum_append]
    ring

/-- The last line of a slide extended by one line. -/
theorem endsWithHeading_append_single (cur : List WrappedLine) (x : WrappedLine) :
    endsWithHeading (cur ++ [x]) =
      match x with
      | WrappedLine.heading _ => true
      | _ => false := by
  unfold endsWithHeading
  rw [List.getLast?_concat]
  cases x <;> rfl

/-- startsWithBody looks only at the first line. -/
theorem startsWithBody_cons (x : WrappedLine) (l : List WrappedLine) :
    startsWithBody (x :: l) =
      match x with
      | WrappedLine.body _ => true
      | _ => false := by
  cases x <;> rfl

/-- The inner loop returns the consumed slide followed by the untouched
remainder. -/
theorem fill_append (maxLines : ℤ) :
    ∀ (l cur : List WrappedLine) (used : ℤ),
      (fillSlide maxLines cur used l).1 ++ (fillSlide maxLines cur used l).2 =
        cur ++ l := by
  intro l
  induction l with
  | nil => intro cur used; simp [fillSlide]
  | cons item rest ih =>
    intro cur used
    cases item with
    | heading t =>
      simp only [fillSlide]
      repeat' split
      all_goals first
        | simp
        | (rw [ih]; simp)
    | body t =>
      simp only [fillSlide]
      split
      · simp
      · rw [ih]; simp
    | poetry i t =>
      simp only [fillSlide]
      split
      · simp
      · rw [ih]; simp

/-- The inner loop only ever extends the slide it was given. -/
theorem fill_extends (maxLines : ℤ) :
    ∀ (l cur : List WrappedLine) (used : ℤ),
      ∃ t, (fillSlide maxLines cur used l).1 = cur ++ t := by
  intro l
  induction l with
  | nil => intro cur used; exact ⟨[], by simp [fillSlide]⟩
  | cons item rest ih =>
    intro cur used
    cases item with
    | heading t =>
      simp only [fillSlide]
      repeat' split
      all_goals first
        | (obtain ⟨t2, ht⟩ := ih (cur ++ [WrappedLine.heading t]) _
           exact ⟨WrappedLine.heading t :: t2, by rw [ht]; simp⟩)
        | exact ⟨[], by simp⟩
    | body t =>
      simp only [fillSlide]
      split
      · exact ⟨[], by simp⟩
      · obtain ⟨t2, ht⟩ := ih (cur ++ [WrappedLine.body t]) _
        exact ⟨WrappedLine.body t :: t2, by rw [ht]; simp⟩
    | poetry i t =>
      simp only [fillSlide]
      split
      · exact ⟨[], by simp⟩
      · obtain ⟨t2, ht⟩ := ih (cur ++ [WrappedLine.poetry i t]) _
        exact ⟨WrappedLine.poetry i t :: t2, by rw [ht]; simp⟩

/-- With a budget of at least one unit, the first line always lands on an
empty slide. -/
theorem fill_head (maxLines : ℤ) (h1 : 1 ≤ maxLines) (x : WrappedLine)
    (l : List WrappedLine) :
    ∃ t, (fillSlide maxLines [] 0 (x :: l)).1 = x :: t := by
  cases x with
  | heading t =>
    simp only [fillSlide]
    rw [if_neg (by simp)]
    simp only [List.nil_append, List.isEmpty_nil, if_true, zero_add]
    obtain ⟨t2, ht⟩ := fill_extends maxLines l [WrappedLine.heading t] 1
    exact ⟨t2, by rw [ht]; rfl⟩
  | body t =>
    simp only [fillSlide]
    rw [if_neg (by omega)]
    simp only [List.nil_append, zero_add]
    obtain ⟨t2, ht⟩ := fill_extends maxLines l [WrappedLine.body t] 1
    exact ⟨t2, by rw [ht]; rfl⟩
  | poetry i t =>
    simp only [fillSlide]
    rw [if_neg (by omega)]
    simp only [List.nil_append, zero_add]
    obtain ⟨t2, ht⟩ := fill_extends maxLines l [WrappedLine.poetry i t] 1
    exact ⟨t2, by rw [ht]; rfl⟩

/-- A non-empty list has isEmpty false. -/
theorem isEmpty_false_of_ne {α : Type} {l : List α} (h : l ≠ []) :
    l.isEmpty = false := by
  cases l with
  | nil => exact absurd rfl h
  | cons a t => rfl

/-- Budget invariant of the inner loop: starting from a slide whose unit
count is tracked correctly and within budget (or a lone oversize first
item), the finished slide is within budget or is a single forced item on
a sub-unit budget. -/
theorem fill_bound (maxLines : ℤ) :
    ∀ (l cur : List WrappedLine) (used : ℤ),
      used = slideUnits cur →
      (cur = [] ∨ slideUnits cur ≤ maxLines ∨ (cur.length = 1 ∧ maxLines < 1)) →
      ((fillSlide maxLines cur used l).1 = [] ∨
        slideUnits (fillSlide maxLines cur used l).1 ≤ maxLines ∨
        ((fillSlide maxLines cur used l).1.length = 1 ∧ maxLines < 1)) := by
  intro l
  induction l with
  | nil =>
    intro cur used hu hB
    simpa [fillSlide] using hB
  | cons item rest ih =>
    intro cur used hu hB
    have hstep : ∀ (x : WrappedLine),
        cur ≠ [] → slideUnits (cur ++ [x]) = slideUnits cur + laterUnits x := by
      intro x hne
      rw [slideUnits_append_single, if_neg (by simp [isEmpty_false_of_ne hne])]
    cases item with
    | heading t =>
      by_cases hcur : cur = []
      · subst hcur
        have hu0 : used = 0 := by simpa [slideUnits] using hu
        subst hu0
        simp only [fillSlide]
        rw [if_neg (by simp)]
        simp only [List.nil_append, List.isEmpty_nil, if_true, zero_add]
        refine ih [WrappedLine.heading t] 1 (by simp [slideUnits]) ?_
        rcases le_or_lt 1 maxLines with h | h
        · exact Or.inr (Or.inl (by simpa [slideUnits] using h))
        · exact Or.inr (Or.inr ⟨rfl, h⟩)
      · have hie : cur.isEmpty = false := isEmpty_false_of_ne hcur
        simp only [fillSlide, hie, Bool.false_eq_true, if_false, not_false_iff,
          and_true]
        split <;> split
        · simpa using hB
        next hbr =>
          have h2 : used + 2 ≤ maxLines := by omega
          refine ih (cur ++ [WrappedLine.heading t]) (used + 2) ?_ ?_
          · rw [hstep _ hcur, ← hu]; rfl
          · exact Or.inr (Or.inl (by
              rw [hstep _ hcur, ← hu]; simpa [laterUnits] using h2))
        · simpa using hB
        next hbr =>
          have h2 : used + 2 ≤ maxLines := by omega
          refine ih (cur ++ [WrappedLine.heading t]) (used + 2) ?_ ?_
          · rw [hstep _ hcur, ← hu]; rfl
          · exact Or.inr (Or.inl (by
              rw [hstep _ hcur, ← hu]; simpa [laterUnits] using h2))
    | body t =>
      simp only [fillSlide]
      split
      · simpa using hB
      next hbr =>
        push_neg at hbr
        refine ih (cur ++ [WrappedLine.body t]) (used + 1) ?_ ?_
        · rw [slideUnits_append_single]
          by_cases hcur : cur = []
          · subst hcur
            have hu0 : used = 0 := by simpa [slideUnits] using hu
            simp [hu0]
          · rw [if_neg (by simp [isEmpty_false_of_ne hcur]), ← hu]; rfl
        · refine Or.inr (Or.inl ?_)
          rw [slideUnits_append_single]
          by_cases hcur : cur = []
          · subst hcur
            have hu0 : used = 0 := by simpa [slideUnits] using hu
            simp only [List.isEmpty_nil, if_true]
            omega
          · rw [if_neg (by simp [isEmpty_false_of_ne hcur]), ← hu]
            simpa [laterUnits] using hbr
    | poetry i t =>
      simp only [fillSlide]
      split
      · simpa using hB
      next hbr =>
        push_neg at hbr
        refine ih (cur ++ [WrappedLine.poetry i t]) (used + 1) ?_ ?_
        · rw [slideUnits_append_single]
          by_cases hcur : cur = []
          · subst hcur
            have hu0 : used = 0 := by simpa [slideUnits] using hu
            simp [hu0]
          · rw [if_neg (by simp [isEmpty_false_of_ne hcur]), ← hu]; rfl
        · refine Or.inr (Or.inl ?_)
          rw [slideUnits_append_single]
          by_cases hcur : cur = []
          · subst hcur
            have hu0 : used = 0 := by simpa [slideUnits] using hu
            simp only [List.isEmpty_nil, if_true]
            omega
          · rw [if_neg (by simp [isEmpty_false_of_ne hcur]), ← hu]
            simpa [laterUnits] using hbr

/-- Orphan-heading invariant of the inner loop: with a budget of at least
three units (gap, heading, first body line), a finished slide never ends in
a heading whose immediately following wrapped line is a body line. -/
theorem fill_no_orphan (maxLines : ℤ) (h3 : 3 ≤ maxLines) :
    ∀ (l cur : List WrappedLine) (used : ℤ),
      used = slideUnits cur →
      (endsWithHeading cur = true → startsWithBody l = true →
        used + 1 ≤ maxLines) →
      ¬(endsWithHeading (fillSlide maxLines cur used l).1 = true ∧
        startsWithBody (fillSlide maxLines cur used l).2 = true) := by
  intro l
  induction l with
  | nil =>
    intro cur used hu hQ
    simp [fillSlide, startsWithBody]
  | cons item rest ih =>
    intro cur used hu hQ
    cases item with
    | heading t =>
      by_cases hcur : cur = []
      · subst hcur
        have hu0 : used = 0 := by simpa [slideUnits] using hu
        subst hu0
        simp only [fillSlide]
        rw [if_neg (by simp)]
        simp only [List.nil_append, List.isEmpty_nil, if_true, zero_add]
        refine ih [WrappedLine.heading t] 1 (by simp [slideUnits]) ?_
        intro _ _
        omega
      · have hie : cur.isEmpty = false := isEmpty_false_of_ne hcur
        simp only [fillSlide, hie, Bool.false_eq_true, if_false, not_false_iff,
          and_true]
        split <;> split
        · simp [startsWithBody]
        next hsb hbr =>
          refine ih (cur ++ [WrappedLine.heading t]) (used + 2) ?_ ?_
          · rw [slideUnits_append_single, if_neg (by simp [hie]), ← hu]; rfl
          · intro _ _
            omega
        · simp [startsWithBody]
        next hsb hbr =>
          refine ih (cur ++ [WrappedLine.heading t]) (used + 2) ?_ ?_
          · rw [slideUnits_append_single, if_neg (by simp [hie]), ← hu]; rfl
          · intro _ hsb2
            exact absurd hsb2 hsb
    | body t =>
      simp only [fillSlide]
      split
      next hbr =>
        intro hcon
        have := hQ hcon.1 (by simp [startsWithBody])
        omega
      next hbr =>
        refine ih (cur ++ [WrappedLine.body t]) (used + 1) ?_ ?_
        · rw [slideUnits_append_single]
          by_cases hcur : cur = []
          · subst hcur
            have hu0 : used = 0 := by simpa [slideUnits] using hu
            simp [hu0]
          · rw [if_neg (by simp [isEmpty_false_of_ne hcur]), ← hu]; rfl
        · intro hend _
          rw [endsWithHeading_append_single] at hend
          simp at hend
    | poetry i t =>
      simp only [fillSlide]
      split
      next hbr =>
        intro hcon
        have hsb := hcon.2
        simp [startsWithBody] at hsb
      next hbr =>
        refine ih (cur ++ [WrappedLine.poetry i t]) (used + 1) ?_ ?_
        · rw [slideUnits_append_single]
          by_cases hcur : cur = []
          · subst hcur
            have hu0 : used = 0 := by simpa [slideUnits] using hu
            simp [hu0]
          · rw [if_neg (by simp [isEmpty_false_of_ne hcur]), ← hu]; rfl
        · intro hend _
          rw [endsWithHeading_append_single] at hend
          simp at hend

/-- startsWithBody depends only on the head line. -/
theorem startsWithBody_head (y : WrappedLine) (l1 l2 : List WrappedLine) :
    startsWithBody (y :: l1) = startsWithBody (y :: l2) := by
  cases y <;> rfl

/-- The slides produced by pagination concatenate back to the input. -/
theorem paginate_flatten (maxLines : ℤ) :
    ∀ (fuel : Nat) (L : List WrappedLine) (S : List (List WrappedLine)),
      paginateFuel maxLines fuel L = some S → S.flatten = L := by
  intro fuel
  induction fuel with
  | zero =>
    intro L S h
    cases L with
    | nil =>
      simp only [paginateFuel, Option.some.injEq] at h
      subst h
      rfl
    | cons x rest => simp [paginateFuel] at h
  | succ n ih =>
    intro L S h
    cases L with
    | nil =>
      simp only [paginateFuel, Option.some.injEq] at h
      subst h
      rfl
    | cons x rest =>
      simp only [paginateFuel] at h
      cases hrec : paginateFuel maxLines n (fillSlide maxLines [] 0 (x :: rest)).2 with
      | none => rw [hrec] at h; simp at h
      | some S2 =>
        rw [hrec] at h
        simp only [Option.some.injEq] at h
        have hfl2 := ih _ _ hrec
        have happ := fill_append maxLines (x :: rest) [] 0
        by_cases hempty : (fillSlide maxLines [] 0 (x :: rest)).1.isEmpty
        · rw [if_pos hempty] at h
          subst h
          rw [hfl2]
          have : (fillSlide maxLines [] 0 (x :: rest)).1 = [] :=
            List.isEmpty_iff.mp hempty
          rw [this] at happ
          simpa using happ
        · rw [if_neg hempty] at h
          subst h
          simp only [List.flatten_cons, hfl2]
          simpa using happ

/-- Every slide emitted by pagination is non-empty and within budget,
except a lone forced item on a sub-unit budget. -/
theorem paginate_bound (maxLines : ℤ) :
    ∀ (fuel : Nat) (L : List WrappedLine) (S : List (List WrappedLine)),
      paginateFuel maxLines fuel L = some S →
      ∀ s ∈ S, s ≠ [] ∧
        (slideUnits s ≤ maxLines ∨ (s.length = 1 ∧ maxLines < 1)) := by
  intro fuel
  induction fuel with
  | zero =>
    intro L S h
    cases L with
    | nil =>
      simp only [paginateFuel, Option.some.injEq] at h
      subst h
      simp
    | cons x rest => simp [paginateFuel] at h
  | succ n ih =>
    intro L S h
    cases L with
    | nil =>
      simp only [paginateFuel, Option.some.injEq] at h
      subst h
      simp
    | cons x rest =>
      simp only [paginateFuel] at h
      cases hrec : paginateFuel maxLines n (fillSlide maxLines [] 0 (x :: rest)).2 with
      | none => rw [hrec] at h; simp at h
      | some S2 =>
        rw [hrec] at h
        simp only [Option.some.injEq] at h
        by_cases hempty : (fillSlide maxLines [] 0 (x :: rest)).1.isEmpty
        · rw [if_pos hempty] at h
          subst h
          exact ih _ _ hrec
        · rw [if_neg hempty] at h
          subst h
          intro s hs
          rcases List.mem_cons.mp hs with rfl | hs2

          · refine ⟨fun hnil => hempty (by simp [hnil]), ?_⟩
            have hb := fill_bound maxLines (x :: rest) [] 0 rfl (Or.inl rfl)
            rcases hb with hb | hb
            · exact absurd hb (by intro hnil; exact hempty (by simp [hnil]))
            · exact hb
          · exact ih _ _ hrec s hs2

/-- With a budget of at least one unit, the first slide of a pagination
result starts with the first input line. -/
theorem paginate_head (maxLines : ℤ) (h1 : 1 ≤ maxLines) (fuel : Nat)
    (y : WrappedLine) (rest : List WrappedLine) (S : List (List WrappedLine))
    (h : paginateFuel maxLines fuel (y :: rest) = some S) :
    ∃ t S2, S = (y :: t) :: S2 := by
  cases fuel with
  | zero => simp [paginateFuel] at h
  | succ n =>
    simp only [paginateFuel] at h
    obtain ⟨t, ht⟩ := fill_head maxLines h1 y rest
    cases hrec : paginateFuel maxLines n (fillSlide maxLines [] 0 (y :: rest)).2 with
    | none => rw [hrec] at h; simp at h
    | some S2 =>
      rw [hrec] at h
      simp only [Option.some.injEq] at h
      rw [ht] at h
      simp only [List.isEmpty_cons, if_false, Bool.false_eq_true] at h
      exact ⟨t, S2, h.symm⟩

/-- With a budget of at least three units, no slide boundary separates a
heading from an immediately following body line. -/
theorem paginate_chain (maxLines : ℤ) (h3 : 3 ≤ maxLines) :
    ∀ (fuel : Nat) (L : List WrappedLine) (S : List (List WrappedLine)),
      paginateFuel maxLines fuel L = some S →
      S.Chain' (fun a b =>
        ¬(endsWithHeading a = true ∧ startsWithBody b = true)) := by
  have h1 : (1 : ℤ) ≤ maxLines := by omega
  intro fuel
  induction fuel with
  | zero =>
    intro L S h
    cases L with
    | nil =>
      simp only [paginateFuel, Option.some.injEq] at h
      subst h
      exact List.chain'_nil
    | cons x rest => simp [paginateFuel] at h
  | succ n ih =>
    intro L S h
    cases L with
    | nil =>
      simp only [paginateFuel, Option.some.injEq] at h
      subst h
      exact List.chain'_nil
    | cons x rest =>
      simp only [paginateFuel] at h
      cases hrec : paginateFuel maxLines n (fillSlide maxLines [] 0 (x :: rest)).2 with
      | none => rw [hrec] at h; simp at h
      | some S2 =>
        rw [hrec] at h
        simp only [Option.some.injEq] at h
        obtain ⟨t, ht⟩ := fill_head maxLines h1 x rest
        rw [ht] at h
        simp only [List.isEmpty_cons, if_false, Bool.false_eq_true] at h
        subst h
        have hchain := ih _ _ hrec
        cases hr2 : (fillSlide maxLines [] 0 (x :: rest)).2 with
        | nil =>
          rw [hr2] at hrec
          have hS2 : S2 = [] := by
            cases n <;> simpa [paginateFuel] using hrec.symm
          subst hS2
          exact List.chain'_singleton _
        | cons y rest2 =>
          rw [hr2] at hrec
          obtain ⟨t2, S3, hS2⟩ := paginate_head maxLines h1 n y rest2 S2 hrec
          subst hS2
          refine List.chain'_cons.mpr ⟨?_, hchain⟩
          intro hcon
          have hno := fill_no_orphan maxLines h3 (x :: rest) [] 0 rfl
            (by intro hend _; simp [endsWithHeading] at hend)
          rw [ht, hr2] at hno
          apply hno
          refine ⟨hcon.1, ?_⟩
          have h2 := hcon.2
          rw [startsWithBody_head y t2 rest2] at h2
          exact h2

/-- C2.  The claim says a Body line arriving at an empty slide is placed
even when 1 exceeds maxLines, so pagination always terminates and consumes
every line, including when floor(availableHeight / lineHeight) = 0.  The
code does the opposite: with availableHeight 1 and lineHeight 2 (so
maxLines = 0), the inner loop refuses the body line even on an empty slide,
the outer loop makes no progress, and pagination never finishes no matter
how much fuel it is given. -/
theorem paginate_diverges_on_zero_budget :
    (∀ fuel : Nat, paginateHeights 1 2 fuel [WrappedLine.body ['a']] = none) ∧
      fillSlide (maxLinesOf 1 2) [] 0 [WrappedLine.body ['a']] =
        ([], [WrappedLine.body ['a']]) := by
  have hm : maxLinesOf 1 2 = 0 := by norm_num [maxLinesOf, pyInt]
  have hfill : fillSlide 0 [] 0 [WrappedLine.body ['a']] =
      ([], [WrappedLine.body ['a']]) := by decide
  constructor
  · intro fuel
    induction fuel with
    | zero => simp [paginateHeights, hm, paginateFuel]
    | succ n ih =>
      simp only [paginateHeights, hm] at ih ⊢
      simp only [paginateFuel, hfill]
      rw [ih]
  · rw [hm]
    exact hfill

/-- C3.  With a budget of at least three units (so a heading, its gap and
one body line fit), pagination never separates a heading from an
immediately following body line: the slides concatenate back to the input
and no slide boundary has a heading on its left and a body line on its
right. -/
theorem paginate_no_orphan_heading (maxLines : ℤ) (fuel : Nat)
    (L : List WrappedLine) (S : List (List WrappedLine)) (h3 : 3 ≤ maxLines)
    (hS : paginateFuel maxLines fuel L = some S) :
    S.flatten = L ∧
      S.Chain' (fun a b =>
        ¬(endsWithHeading a = true ∧ startsWithBody b = true)) :=
  ⟨paginate_flatten maxLines fuel L S hS, paginate_chain maxLines h3 fuel L S hS⟩

/-- Witness for C3 at a concrete input. -/
theorem paginate_no_orphan_heading_witness :
    ([[WrappedLine.heading ['h'], WrappedLine.body ['b']]] :
        List (List WrappedLine)).flatten =
        [WrappedLine.heading ['h'], WrappedLine.body ['b']] ∧
      ([[WrappedLine.heading ['h'], WrappedLine.body ['b']]] :
        List (List WrappedLine)).Chain'
        (fun a b => ¬(endsWithHeading a = true ∧ startsWithBody b = true)) :=
  paginate_no_orphan_heading 3 1
    [WrappedLine.heading ['h'], WrappedLine.body ['b']]
    [[WrappedLine.heading ['h'], WrappedLine.body ['b']]]
    (by omega) (by decide)

/-- C4.  Every slide the paginator emits is non-empty, and its unit count
(one per body or poetry line, two per non-first heading, one for a first
heading) is at most maxLines = floor(availableHeight / lineHeight), except
a slide consisting of a single forced placement onto an empty slide when
even one unit exceeds the budget. -/
theorem paginate_budget_invariant (availableHeight lineHeight : ℚ)
    (fuel : Nat) (L : List WrappedLine) (S : List (List WrappedLine))
    (hS : paginateHeights availableHeight lineHeight fuel L = some S)
    (s : List WrappedLine) (hs : s ∈ S) :
    s ≠ [] ∧
      (slideUnits s ≤ maxLinesOf availableHeight lineHeight ∨
        (s.length = 1 ∧ maxLinesOf availableHeight lineHeight < 1)) :=
  paginate_bound (maxLinesOf availableHeight lineHeight) fuel L S hS s hs

/-- Witness for C4 at a concrete input. -/
theorem paginate_budget_invariant_witness :
    ([WrappedLine.body ['a']] : List WrappedLine) ≠ [] ∧
      (slideUnits [WrappedLine.body ['a']] ≤ maxLinesOf 3 1 ∨
        (([WrappedLine.body ['a']] : List WrappedLine).length = 1 ∧
          maxLinesOf 3 1 < 1)) :=
  paginate_budget_invariant 3 1 1 [WrappedLine.body ['a']]
    [[WrappedLine.body ['a']]]
    (by
      have hm3 : maxLinesOf 3 1 = 3 := by norm_num [maxLinesOf, pyInt]
      rw [paginateHeights, hm3]
      decide)
    [WrappedLine.body ['a']] (by decide)

/-- C10.  The heading look-ahead counts an extra unit only when the next
wrapped line is tagged body: with budget 3, a heading whose follower is a
poetry line is kept at the bottom of the first slide and the poetry line
opens the next slide, while the same sequence with a body follower breaks
before the heading instead. -/
theorem heading_lookahead_only_body :
    paginateFuel 3 3 [WrappedLine.body ['a'], WrappedLine.heading ['h'],
        WrappedLine.poetry 0 ['p']] =
      some [[WrappedLine.body ['a'], WrappedLine.heading ['h']],
        [WrappedLine.poetry 0 ['p']]] ∧
      paginateFuel 3 3 [WrappedLine.body ['a'], WrappedLine.heading ['h'],
          WrappedLine.body ['p']] =
        some [[WrappedLine.body ['a']],
          [WrappedLine.heading ['h'], WrappedLine.body ['p']]] := by
  decide

/-- C1.  The claim (and the source's own comment) says only the first
sub-line of a wrapped poetry element keeps the original indent and every
continuation sub-line is recorded with indent 0.  The code appends the
same leading-space count in both branches: the poetry line " aa bb"
(indent 1), wrapped at width 2 with a character-count measure, produces
two sub-lines and the continuation sub-line also carries indent 1. -/
theorem poetry_continuation_keeps_indent :
    formatElement (fun s => (s.length : ℚ)) 5 10
        (Element.poetry [' ', 'a', 'a', ' ', 'b', 'b']) =
      [WrappedLine.poetry 1 ['a', 'a'], WrappedLine.poetry 1 ['b', 'b']] := by
  simp only [formatElement]
  have hd : List.dropWhile (fun c => c = ' ') [' ', 'a', 'a', ' ', 'b', 'b'] =
      ['a', 'a', ' ', 'b', 'b'] := rfl
  rw [hd]
  norm_num
  decide

/-! ### Segmenter lemmas -/

/-- A run of digits followed by a closing bracket splits cleanly under
takeWhile / dropWhile. -/
theorem takeWhile_digits (ds : List Char) (r : List Char)
    (hds : ∀ d ∈ ds, d.isDigit = true) :
    (ds ++ ']' :: r).takeWhile Char.isDigit = ds ∧
      (ds ++ ']' :: r).dropWhile Char.isDigit = ']' :: r := by
  induction ds with
  | nil =>
    constructor <;> simp [List.takeWhile_cons, List.dropWhile_cons]
  | cons d ds ih =>
    have hd := hds d (by simp)
    have h2 := ih (fun x hx => hds x (by simp [hx]))
    constructor <;>
      simp [List.takeWhile_cons, List.dropWhile_cons, hd, h2.1, h2.2]

/-- A match at the head survives appending more characters. -/
theorem tryMatchAt_append {p q ds tail : List Char}
    (h : tryMatchAt p = some (ds, tail)) :
    tryMatchAt (p ++ q) = some (ds, tail ++ q) := by
  obtain ⟨hp, hne, hdig⟩ := tryMatchAt_some h
  subst hp
  have hta := takeWhile_digits ds (tail ++ q) hdig
  cases ds with
  | nil => exact absurd rfl hne
  | cons d ds2 =>
    have hrw : (('[' :: ((d :: ds2) ++ ']' :: tail)) ++ q) =
        '[' :: ((d :: ds2) ++ ']' :: (tail ++ q)):= by simp
    rw [hrw]
    simp only [tryMatchAt, if_pos rfl]
    rw [hta.1, hta.2]
    simp

/-- If the longer list has no match at its head, neither does the shorter. -/
theorem tryMatchAt_none_of_append {p q : List Char}
    (h : tryMatchAt (p ++ q) = none) : tryMatchAt p = none := by
  cases hp : tryMatchAt p with
  | none => rfl
  | some x =>
    obtain ⟨ds, tail⟩ := x
    rw [tryMatchAt_append hp] at h
    exact absurd h (by simp)

/-- A list with no match starting at any position has no marker. -/
theorem hasMarker_false_of_none (l : List Char)
    (h : ∀ i, tryMatchAt (l.drop i) = none) : hasMarker l = false := by
  induction l with
  | nil => rfl
  | cons c rest ih =>
    simp only [hasMarker, Bool.or_eq_false_iff]
    constructor
    · have h0 := h 0
      simp only [List.drop_zero] at h0
      simp [h0]
    · exact ih (fun i => by have := h (i + 1); simpa using this)

/-- Reassembling the segmentation of the scan recovers the pending run
followed by the unscanned characters. -/
theorem segmentAux_flatten :
    ∀ (pending cs : List Char),
      ((segmentAux pending cs).map renderSegment).flatten = pending ++ cs := by
  intro pending cs
  induction pending, cs using segmentAux.induct with
  | case1 cur hcur =>
    simp [segmentAux, List.isEmpty_iff.mp hcur]
  | case2 cur hcur =>
    have hne : cur ≠ [] := by simpa [List.isEmpty_iff] using hcur
    simp [segmentAux, hne, renderSegment]
  | case3 cur c rest ds tail hm ih =>
    obtain ⟨hp, -, -⟩ := tryMatchAt_some hm
    simp only [segmentAux]
    split
    next ds2 tail2 heq =>
      rw [hm] at heq
      injection heq with heq2
      injection heq2 with hds htail
      subst hds
      subst htail
      rw [hp]
      by_cases hcur : cur = []
      · subst hcur
        simp [renderSegment, ih]
      · simp [hcur, renderSegment, ih]
    next heq =>
      rw [hm] at heq
      exact absurd heq (by simp)
  | case4 cur c rest hm ih =>
    simp only [segmentAux]
    split
    next ds2 tail2 heq =>
      rw [hm] at heq
      exact absurd heq (by simp)
    next heq =>
      rw [ih]
      simp

/-- Every segment the scan produces is well-formed, provided no suffix of
the pending run (continued by the unscanned text) starts a match. -/
theorem segmentAux_segOk :
    ∀ (pending cs : List Char),
      (∀ i, i < pending.length → tryMatchAt (pending.drop i ++ cs) = none) →
      ∀ seg ∈ segmentAux pending cs, segOk seg = true := by
  intro pending cs
  induction pending, cs using segmentAux.induct with
  | case1 cur hcur =>
    intro _ seg hseg
    simp [segmentAux, hcur] at hseg
  | case2 cur hcur =>
    intro hok seg hseg
    simp only [segmentAux, if_neg hcur, List.mem_singleton] at hseg
    subst hseg
    simp only [segOk, Bool.and_eq_true]
    refine ⟨by simpa using hcur, ?_⟩
    simp only [Bool.not_eq_true']
    refine hasMarker_false_of_none cur (fun i => ?_)
    by_cases hi : i < cur.length
    · have := hok i hi
      simpa using this
    · rw [List.drop_eq_nil_of_le (by omega)]
      rfl
  | case3 cur c rest ds tail hm ih =>
    intro hok seg hseg
    have hmarker : hasMarker cur = false := by
      refine hasMarker_false_of_none cur (fun i => ?_)
      by_cases hi : i < cur.length
      · exact tryMatchAt_none_of_append (hok i hi)
      · rw [List.drop_eq_nil_of_le (by omega)]
        rfl
    simp only [segmentAux] at hseg
    split at hseg
    next ds2 tail2 heq =>
      rw [hm] at heq
      injection heq with heq2
      injection heq2 with hds htail
      subst hds
      subst htail
      rcases List.mem_append.mp hseg with hseg2 | hseg2
      · split at hseg2
        · simp at hseg2
        next hcur =>
          simp only [List.mem_singleton] at hseg2
          subst hseg2
          simp only [segOk, Bool.and_eq_true]
          exact ⟨by simpa [List.isEmpty_iff] using hcur,
            by simpa using hmarker⟩
      · rcases List.mem_cons.mp hseg2 with rfl | hseg2
        · obtain ⟨-, hne, hdig⟩ := tryMatchAt_some hm
          simp only [segOk, Bool.and_eq_true]
          exact ⟨by simpa using hne, List.all_eq_true.mpr hdig⟩
        · exact ih (by intro i hi; simp at hi) seg hseg2
    next heq =>
      rw [hm] at heq
      exact absurd heq (by simp)
  | case4 cur c rest hm ih =>
    intro hok seg hseg
    simp only [segmentAux] at hseg
    split at hseg
    next ds2 tail2 heq =>
      rw [hm] at heq
      exact absurd heq (by simp)
    next heq =>
      refine ih ?_ seg hseg
      intro i hi
      by_cases hlt : i < cur.length
      · have := hok i hlt
        rw [List.drop_append_of_le_length (by omega)]
        simpa using this
      · have hieq : i = cur.length := by
          have h2 : i < cur.length + 1 := by simpa using hi
          omega
        subst hieq
        rw [List.drop_append_of_le_length (by omega)]
        simpa [List.drop_length] using hm

/-- No two adjacent segments are both text segments. -/
theorem segmentAux_chain :
    ∀ (pending cs : List Char),
      (segmentAux pending cs).Chain'
        (fun a b => ¬(isTextSeg a = true ∧ isTextSeg b = true)) := by
  intro pending cs
  induction pending, cs using segmentAux.induct with
  | case1 cur hcur => simp [segmentAux, hcur]
  | case2 cur hcur =>
    have hne : cur ≠ [] := by simpa [List.isEmpty_iff] using hcur
    simp [segmentAux, hne]
  | case3 cur c rest ds tail hm ih =>
    simp only [segmentAux]
    split
    next ds2 tail2 heq =>
      rw [hm] at heq
      injection heq with heq2
      injection heq2 with hds htail
      subst hds
      subst htail
      have hverse : (Segment.verse ds :: segmentAux [] tail).Chain'
          (fun a b => ¬(isTextSeg a = true ∧ isTextSeg b = true)) := by
        refine List.chain'_cons'.mpr ⟨?_, ih⟩
        intro b _
        simp [isTextSeg]
      split
      · simpa using hverse
      · simp only [List.singleton_append]
        refine List.chain'_cons'.mpr ⟨?_, hverse⟩
        intro b hb
        simp only [List.head?_cons, Option.mem_def, Option.some.injEq] at hb
        subst hb
        simp [isTextSeg]
    next heq =>
      rw [hm] at heq
      exact absurd heq (by simp)
  | case4 cur c rest hm ih =>
    simp only [segmentAux]
    split
    next ds2 tail2 heq =>
      rw [hm] at heq
      exact absurd heq (by simp)
    next heq => exact ih

/-- C7.  Segmenting a line round-trips: concatenating the segments in
order, text segments verbatim and each verse segment re-bracketed as
"[digits]", reconstructs the line exactly; every text segment is a
non-empty run containing no verse-number match, every verse segment holds
a non-empty digit run, and no two text segments are adjacent. -/
theorem segment_roundtrip_exact (line : List Char) :
    ((segmentLine line).map renderSegment).flatten = line ∧
      (segmentLine line).all segOk = true ∧
      (segmentLine line).Chain'
        (fun a b => ¬(isTextSeg a = true ∧ isTextSeg b = true)) := by
  refine ⟨by simpa using segmentAux_flatten [] line, ?_, segmentAux_chain [] line⟩
  rw [List.all_eq_true]
  exact segmentAux_segOk [] line (by intro i hi; simp at hi)

/-! ### Parser lemmas -/

/-- The first element surviving dropWhile fails the predicate. -/
theorem dropWhile_head_not {α : Type} (p : α → Bool) :
    ∀ (l : List α) (x : α) (xs : List α), l.dropWhile p = x :: xs → p x = false := by
  intro l
  induction l with
  | nil => intro x xs h; simp at h
  | cons a t ih =>
    intro x xs h
    rw [List.dropWhile_cons] at h
    split at h
    · exact ih x xs h
    next hp =>
      injection h with h1 h2
      subst h1
      simpa using hp

/-- The code's poetry test agrees with the claim's wording. -/
theorem isPoetry_eq_spec (text : List Char) :
    isPoetry text = isPoetrySpec text := by
  unfold isPoetry isPoetrySpec
  induction splitNl text with
  | nil => rfl
  | cons l ls ih =>
    simp only [List.any_cons, ih]
    cases l with
    | nil => rfl
    | cons c r => simp [hasLeadingSpace]

/-- Flushing in poetry mode emits one poetry element per buffered line. -/
theorem flush_poetry (buf : List (List Char)) :
    (if buf.isEmpty then [] else flushBody true buf) = buf.map Element.poetry := by
  cases buf with
  | nil => rfl
  | cons b t => simp [flushBody]

/-- In poetry mode the parser is a per-line translation: blank lines are
dropped, headings become heading elements, all other lines become poetry
elements holding the raw line. -/
theorem parse_poetry_mode :
    ∀ (ls buf : List (List Char)),
      parseLinesAux true buf ls =
        buf.map Element.poetry ++ ls.filterMap (fun l =>
          if (pyStrip l).isEmpty then none
          else if isSectionHeading l then some (Element.heading (pyStrip l))
          else some (Element.poetry l)) := by
  intro ls
  induction ls with
  | nil =>
    intro buf
    simp only [parseLinesAux, List.filterMap_nil, List.append_nil]
    exact flush_poetry buf
  | cons l rest ih =>
    intro buf
    by_cases hblank : (pyStrip l).isEmpty
    · have hb2 : pyStrip l = [] := List.isEmpty_iff.mp hblank
      simp [parseLinesAux, hblank, hb2, ih]
    · have hb2 : ¬(pyStrip l = []) := by
        simpa [List.isEmpty_iff] using hblank
      by_cases hhead : isSectionHeading l
      · simp [parseLinesAux, hblank, hb2, hhead, ih]
        cases buf <;> simp [flushBody]
      · simp [parseLinesAux, hblank, hb2, hhead, ih]

/-- Blank lines never contribute: the parser behaves as if they were
filtered away first. -/
theorem parse_filter_blank :
    ∀ (ls : List (List Char)) (mode : Bool) (buf : List (List Char)),
      parseLinesAux mode buf ls =
        parseLinesAux mode buf (ls.filter (fun l => !(pyStrip l).isEmpty)) := by
  intro ls
  induction ls with
  | nil => intro mode buf; rfl
  | cons l rest ih =>
    intro mode buf
    by_cases hblank : (pyStrip l).isEmpty
    · have hb2 : pyStrip l = [] := List.isEmpty_iff.mp hblank
      simp only [List.filter_cons, hblank, Bool.not_true, Bool.false_eq_true,
        if_false]
      simp only [parseLinesAux, hblank, if_true]
      exact ih mode buf
    · have hb2 : ¬(pyStrip l = []) := by
        simpa [List.isEmpty_iff] using hblank
      have hkeep : (!(pyStrip l).isEmpty) = true := by
        simpa using hblank
      simp only [List.filter_cons, hkeep, if_true]
      by_cases hhead : isSectionHeading l
      · simp only [parseLinesAux, hblank, hhead, if_true, if_false]
        rw [ih mode []]
        simp
      · simp only [parseLinesAux, hblank, hhead, if_false]
        rw [ih mode (buf ++ [if mode then l else pyStrip l])]
        simp

/-- Consuming a run of non-blank non-heading lines in prose mode just
extends the buffer with the stripped lines. -/
theorem parse_prose_run :
    ∀ (run buf rest : List (List Char)),
      (∀ l ∈ run, ¬(pyStrip l).isEmpty = true ∧ ¬isSectionHeading l = true) →
      parseLinesAux false buf (run ++ rest) =
        parseLinesAux false (buf ++ run.map pyStrip) rest := by
  intro run
  induction run with
  | nil => intro buf rest _; simp
  | cons l run ih =>
    intro buf rest hrun
    obtain ⟨hbl, hhd⟩ := hrun l (by simp)
    rw [List.cons_append]
    rw [show parseLinesAux false buf (l :: (run ++ rest)) =
        parseLinesAux false (buf ++ [pyStrip l]) (run ++ rest) by
      simp [parseLinesAux, hbl, hhd]]
    rw [ih (buf ++ [pyStrip l]) rest (fun x hx => hrun x (by simp [hx]))]
    simp

/-- On blank-free lines the prose-mode parser equals the run grouping of
the claim. -/
theorem parse_prose_eq :
    ∀ (n : Nat) (ls : List (List Char)), ls.length ≤ n →
      (∀ l ∈ ls, ¬(pyStrip l).isEmpty = true) →
      parseLinesAux false [] ls = proseRuns ls := by
  intro n
  induction n with
  | zero =>
    intro ls hlen _
    have hnil : ls = [] := List.length_eq_zero.mp (Nat.le_zero.mp hlen)
    subst hnil
    simp [parseLinesAux, proseRuns]
  | succ n ih =>
    intro ls hlen hbl
    cases ls with
    | nil => simp [parseLinesAux, proseRuns]
    | cons l rest =>
      have hblank := hbl l (by simp)
      by_cases hhead : isSectionHeading l
      · simp only [parseLinesAux, hblank, hhead, if_true, if_false,
          List.isEmpty_nil, List.nil_append]
        rw [ih rest (by simpa using hlen) (fun x hx => hbl x (by simp [hx]))]
        simp [proseRuns, hhead]
      · have hsplit : rest.takeWhile (fun x => !isSectionHeading x) ++
            rest.dropWhile (fun x => !isSectionHeading x) = rest :=
          List.takeWhile_append_dropWhile _ _
        have hrunprop : ∀ x ∈ l :: rest.takeWhile (fun x => !isSectionHeading x),
            ¬(pyStrip x).isEmpty = true ∧ ¬isSectionHeading x = true := by
          intro x hx
          rcases List.mem_cons.mp hx with rfl | hx2
          · exact ⟨hblank, hhead⟩
          · have hxrest : x ∈ rest := by
              rw [← hsplit]
              exact List.mem_append.mpr (Or.inl hx2)
            refine ⟨hbl x (List.mem_cons.mpr (Or.inr hxrest)), ?_⟩
            have := List.mem_takeWhile_imp hx2
            simpa using this
        have hstep : parseLinesAux false [] (l :: rest) =
            parseLinesAux false
              ((l :: rest.takeWhile (fun x => !isSectionHeading x)).map pyStrip)
              (rest.dropWhile (fun x => !isSectionHeading x)) := by
          have h2 := parse_prose_run
            (l :: rest.takeWhile (fun x => !isSectionHeading x)) []
            (rest.dropWhile (fun x => !isSectionHeading x)) hrunprop
          simp only [List.nil_append] at h2
          rw [← h2, List.cons_append, hsplit]
        rw [hstep]
        cases hr2 : rest.dropWhile (fun x => !isSectionHeading x) with
        | nil =>
          simp only [parseLinesAux, List.map_cons, List.isEmpty_cons,
            Bool.false_eq_true, if_false, flushBody]
          simp [proseRuns, hhead]
          rw [hr2]
          simp [proseRuns]
        | cons h2 rest3 =>
          have hh2 : isSectionHeading h2 = true := by
            have := dropWhile_head_not (fun x => !isSectionHeading x) rest h2 rest3 hr2
            simpa using this
          have hh2mem : h2 ∈ rest := by
            rw [← hsplit, hr2]
            exact List.mem_append.mpr (Or.inr (by simp))
          have hh2bl := hbl h2 (by simp [hh2mem])
          have hlen3 : rest3.length ≤ n := by
            have hle := dropWhile_length_le (fun x => !isSectionHeading x) rest
            rw [hr2] at hle
            simp only [List.length_cons] at hle hlen
            omega
          have hbl3 : ∀ x ∈ rest3, ¬(pyStrip x).isEmpty = true := by
            intro x hx
            refine hbl x ?_
            have : x ∈ rest.dropWhile (fun x => !isSectionHeading x) := by
              rw [hr2]; simp [hx]
            rw [← hsplit]
            exact List.mem_cons.mpr (Or.inr (List.mem_append.mpr (Or.inr this)))
          simp only [parseLinesAux, hh2bl, hh2, if_true, if_false,
            List.map_cons, List.isEmpty_cons, Bool.false_eq_true, flushBody]
          rw [ih rest3 hlen3 hbl3]
          simp [proseRuns, hhead, hr2, hh2]

/-- C8.  The poetry-vs-prose decision is made once per passage from the
full raw text: if some line has a leading space and non-empty stripped
content, every non-heading non-blank line becomes one PoetryLine element
with its original leading whitespace (even lines with no leading space);
otherwise consecutive non-heading lines are stripped and joined with
single spaces into one Body element per run. -/
theorem parse_poetry_global_decision (text : List Char) :
    parsePassageElements text = parseSpec text ∧
      isPoetry text = isPoetrySpec text := by
  have hpo := isPoetry_eq_spec text
  refine ⟨?_, hpo⟩
  unfold parsePassageElements parseSpec
  rw [hpo]
  by_cases hp : isPoetrySpec text
  · simp only [hp, if_true]
    rw [parse_poetry_mode (splitNl text) []]
    simp [poetryElemsSpec]
  · have hp2 : isPoetrySpec text = false := by simpa using hp
    simp only [hp2, Bool.false_eq_true, if_false]
    rw [parse_filter_blank]
    rw [parse_prose_eq
      ((splitNl text).filter (fun l => !(pyStrip l).isEmpty)).length _ le_rfl
      (by
        intro x hx
        have := (List.mem_filter.mp hx).2
        simpa using this)]
    rfl

/-! ### Content-preservation lemmas -/

/-- Filtering non-whitespace distributes over append. -/
theorem nonWhite_append (a b : List Char) :
    nonWhite (a ++ b) = nonWhite a ++ nonWhite b := by
  simp [nonWhite]

/-- Dropping leading whitespace does not change the non-whitespace
characters. -/
theorem nonWhite_dropWhile (l : List Char) :
    nonWhite (l.dropWhile isWs) = nonWhite l := by
  induction l with
  | nil => rfl
  | cons c rest ih =>
    rw [List.dropWhile_cons]
    split
    next h =>
      rw [ih]
      simp [nonWhite, List.filter_cons, h]
    next h => rfl

/-- Filtering non-whitespace commutes with reversal. -/
theorem nonWhite_reverse (l : List Char) :
    nonWhite l.reverse = (nonWhite l).reverse :=
  List.filter_reverse _ _

/-- Stripping only removes whitespace. -/
theorem nonWhite_pyStrip (l : List Char) :
    nonWhite (pyStrip l) = nonWhite l := by
  unfold pyStrip
  rw [nonWhite_reverse, nonWhite_dropWhile, nonWhite_reverse,
    List.reverse_reverse, nonWhite_dropWhile]

/-- Filtering non-whitespace distributes over flatten. -/
theorem nonWhite_flatten (xs : List (List Char)) :
    nonWhite xs.flatten = (xs.map nonWhite).flatten := by
  induction xs with
  | nil => rfl
  | cons x t ih => simp [List.flatten_cons, nonWhite_append, ih]

/-- Joining with single spaces adds only whitespace. -/
theorem nonWhite_joinSp (bufs : List (List Char)) :
    nonWhite (joinSp bufs) = (bufs.map nonWhite).flatten := by
  induction bufs with
  | nil => rfl
  | cons w t ih =>
    cases t with
    | nil => simp [joinSp]
    | cons w2 t2 =>
      have hsp : (!isWs ' ') = false := rfl
      show nonWhite (w ++ ' ' :: joinSp (w2 :: t2)) = _
      rw [nonWhite_append]
      simp only [List.map_cons, List.flatten_cons, nonWhite, List.filter_cons,
        hsp, Bool.false_eq_true, if_false] at ih ⊢
      rw [ih]

/-- A line that strips to nothing is all whitespace. -/
theorem blank_nonWhite (l : List Char) (h : (pyStrip l).isEmpty = true) :
    nonWhite l = [] := by
  have h2 : pyStrip l = [] := List.isEmpty_iff.mp h
  rw [← nonWhite_pyStrip, h2]
  rfl

/-- Flushing the buffer emits exactly the buffered non-whitespace content. -/
theorem flush_content (mode : Bool) (buf : List (List Char)) :
    nonWhite (((if buf.isEmpty then [] else flushBody mode buf).map
      elemContent).flatten) = (buf.map nonWhite).flatten := by
  cases buf with
  | nil => rfl
  | cons b t =>
    simp only [List.isEmpty_cons, Bool.false_eq_true, if_false]
    cases mode
    · simp [flushBody, elemContent, nonWhite_joinSp]
    · simp only [flushBody, if_true, List.map_map]
      have hcomp : elemContent ∘ Element.poetry = id := by
        funext x
        rfl
      rw [hcomp, List.map_id, nonWhite_flatten]

/-- The parser neither drops nor adds non-whitespace characters. -/
theorem parse_content :
    ∀ (ls : List (List Char)) (mode : Bool) (buf : List (List Char)),
      nonWhite (((parseLinesAux mode buf ls).map elemContent).flatten) =
        (buf.map nonWhite).flatten ++ (ls.map nonWhite).flatten := by
  intro ls
  induction ls with
  | nil =>
    intro mode buf
    rw [show parseLinesAux mode buf [] =
      if buf.isEmpty then [] else flushBody mode buf from rfl]
    rw [flush_content]
    simp
  | cons l rest ih =>
    intro mode buf
    by_cases hblank : (pyStrip l).isEmpty
    · rw [show parseLinesAux mode buf (l :: rest) = parseLinesAux mode buf rest by
        simp [parseLinesAux, hblank]]
      rw [ih mode buf]
      simp [blank_nonWhite l hblank]
    · by_cases hhead : isSectionHeading l
      · rw [show parseLinesAux mode buf (l :: rest) =
            (if buf.isEmpty then [] else flushBody mode buf) ++
              Element.heading (pyStrip l) :: parseLinesAux mode [] rest by
          simp [parseLinesAux, hblank, hhead]]
        simp only [List.map_append, List.flatten_append, List.map_cons,
          List.flatten_cons, elemContent]
        rw [nonWhite_append, nonWhite_append, flush_content,
          nonWhite_pyStrip, ih mode []]
        simp
      · rw [show parseLinesAux mode buf (l :: rest) =
            parseLinesAux mode (buf ++ [if mode then l else pyStrip l]) rest by
          simp [parseLinesAux, hblank, hhead]]
        rw [ih mode (buf ++ [if mode then l else pyStrip l])]
        cases mode
        · simp [nonWhite_pyStrip]
        · simp

/-- Splitting on newlines never yields an empty list of lines. -/
theorem splitNl_ne_nil : ∀ s : List Char, splitNl s ≠ [] := by
  intro s
  cases s with
  | nil => simp [splitNl]
  | cons c rest =>
    simp only [splitNl]
    split
    · simp
    · cases h : splitNl rest with
      | nil => simp [h]
      | cons a t => simp [h]

/-- The lines of a text carry exactly its non-whitespace characters. -/
theorem nonWhite_splitNl : ∀ s : List Char,
    ((splitNl s).map nonWhite).flatten = nonWhite s := by
  intro s
  induction s with
  | nil => rfl
  | cons c rest ih =>
    simp only [splitNl]
    split
    next hc =>
      subst hc
      have hnl : (!isWs '\n') = false := rfl
      simp only [List.map_cons, List.flatten_cons, ih]
      simp [nonWhite, List.filter_cons, hnl]
    next hc =>
      cases h : splitNl rest with
      | nil => exact absurd h (splitNl_ne_nil rest)
      | cons a t =>
        simp only [h, List.map_cons, List.flatten_cons]
        have ih2 : nonWhite a ++ (t.map nonWhite).flatten = nonWhite rest := by
          have ih3 := ih
          rw [h] at ih3
          simpa using ih3
        simp only [nonWhite, List.filter_cons] at ih2 ⊢
        split
        · simp only [List.cons_append]
          rw [ih2]
        · rw [ih2]

/-- C9.  The element parser preserves all non-whitespace content in order:
the concatenated element contents have exactly the non-whitespace
characters of the input text, in their original relative order (blank
lines and edge whitespace being the only material removed). -/
theorem parse_preserves_nonwhitespace (text : List Char) :
    nonWhite (((parsePassageElements text).map elemContent).flatten) =
      nonWhite text := by
  unfold parsePassageElements
  rw [parse_content (splitNl text) (isPoetry text) []]
  simp [nonWhite_splitNl]

end SlideLayout
